import Mathlib

/-!
Shallow embedding of `utils/languages.py`, a one-shot batch tool that merges
human-readable language names from several locale-information sources
(PyICU, babel, and the project's PO translation catalogs) with a persisted
JSON data file `data/languages.dat`, and writes the merged result back out.

Modelling conventions:
  - A Python `dict` keyed by strings is represented by its canonical form:
    an association list sorted strictly by key (`sortedB`).  Two Python
    dicts are `==` exactly when their canonical forms are equal lists.
  - Python string values use Lean `String`; the empty string stands for an
    absent/empty display name (the source initialises names to `None` and
    only ever tests them for truthiness, so `""` and `None` coincide).
  - A Python 2-tuple `(english, native)` value is `PyVal.vtup`, a JSON-array
    (Python list) value is `PyVal.vlst`, and a `dict(english=…, native=…)`
    value is `PyVal.vobj`.  `json.dump` serialises `vtup` and `vlst`
    identically, while `json.load` always produces lists (`vlst`).
  - Key comparison `ltStr` is lexicographic by code point, which agrees with
    Python 2's byte-wise `str` comparison on UTF-8 as well as with its
    `unicode` comparison, since UTF-8 byte order preserves code-point order.
-/

namespace Languages

/-- A value held in a languages dict: a Python 2-tuple, a Python list
(as produced by `json.load` for a JSON array), or a `dict(english=…,
native=…)` record (JSON object). -/
inductive PyVal where
  | vtup (english native : String)
  | vlst (items : List String)
  | vobj (english native : String)
  deriving DecidableEq, Repr

/-- `json` round trips Python tuples to lists; lists and objects survive. -/
def coerceVal : PyVal → PyVal
  | .vtup e n => .vlst [e, n]
  | .vlst l => .vlst l
  | .vobj e n => .vobj e n

/-- Strict lexicographic comparison of char lists by code point. -/
def ltChars : List Char → List Char → Bool
  | [], [] => false
  | [], _ :: _ => true
  | _ :: _, [] => false
  | a :: as, b :: bs =>
    if a.toNat < b.toNat then true
    else if b.toNat < a.toNat then false
    else ltChars as bs

/-- Python 2 string comparison `a < b` (byte-wise on UTF-8 `str`, code-point
wise on `unicode`; the two orders agree). -/
def ltStr (a b : String) : Bool := ltChars a.data b.data

theorem charToNat_inj {a b : Char} (h : a.toNat = b.toNat) : a = b := by
  rw [← Char.ofNat_toNat a, ← Char.ofNat_toNat b, h]

theorem ltChars_cons_true {a b : Char} {as bs : List Char} :
    ltChars (a :: as) (b :: bs) = true ↔
      a.toNat < b.toNat ∨ (a.toNat = b.toNat ∧ ltChars as bs = true) := by
  constructor
  · intro h
    by_cases h1 : a.toNat < b.toNat
    · exact Or.inl h1
    · by_cases h2 : b.toNat < a.toNat
      · exfalso
        have hf : ltChars (a :: as) (b :: bs) = false := by simp [ltChars, h1, h2]
        rw [hf] at h
        exact Bool.false_ne_true h
      · refine Or.inr ⟨by omega, ?_⟩
        have he : ltChars (a :: as) (b :: bs) = ltChars as bs := by
          simp [ltChars, h1, h2]
        rwa [he] at h
  · rintro (h1 | ⟨he, hr⟩)
    · simp [ltChars, h1]
    · simp [ltChars, he, hr]

theorem ltChars_irrefl (l : List Char) : ltChars l l = false := by
  induction l with
  | nil => rfl
  | cons a as ih => simp [ltChars, ih]

theorem ltChars_eq_of_not : ∀ l1 l2 : List Char,
    ltChars l1 l2 = false → ltChars l2 l1 = false → l1 = l2
  | [], [], _, _ => rfl
  | [], _ :: _, h1, _ => by exact absurd h1 (by simp [ltChars])
  | _ :: _, [], _, h2 => by exact absurd h2 (by simp [ltChars])
  | a :: as, b :: bs, h1, h2 => by
    have h1' : ¬ (a.toNat < b.toNat ∨ (a.toNat = b.toNat ∧ ltChars as bs = true)) := by
      rw [← ltChars_cons_true]; simp [h1]
    have h2' : ¬ (b.toNat < a.toNat ∨ (b.toNat = a.toNat ∧ ltChars bs as = true)) := by
      rw [← ltChars_cons_true]; simp [h2]
    push_neg at h1' h2'
    have he : a.toNat = b.toNat := by
      rcases h1' with ⟨hna, _⟩
      rcases h2' with ⟨hnb, _⟩
      omega
    have heq : a = b := charToNat_inj he
    subst heq
    have hr1 : ltChars as bs = false := by
      have := h1'.2 rfl
      cases h : ltChars as bs with
      | false => rfl
      | true => exact absurd h this
    have hr2 : ltChars bs as = false := by
      have := h2'.2 rfl
      cases h : ltChars bs as with
      | false => rfl
      | true => exact absurd h this
    exact congrArg (a :: ·) (ltChars_eq_of_not as bs hr1 hr2)

theorem ltChars_trans : ∀ l1 l2 l3 : List Char,
    ltChars l1 l2 = true → ltChars l2 l3 = true → ltChars l1 l3 = true
  | [], [], _, h1, _ => by exact absurd h1 (by simp [ltChars])
  | [], _ :: _, [], _, h2 => by exact absurd h2 (by simp [ltChars])
  | [], _ :: _, _ :: _, _, _ => rfl
  | _ :: _, [], _, h1, _ => by exact absurd h1 (by simp [ltChars])
  | _ :: _, _ :: _, [], _, h2 => by exact absurd h2 (by simp [ltChars])
  | a :: as, b :: bs, c :: cs, h1, h2 => by
    rw [ltChars_cons_true] at h1 h2 ⊢
    rcases h1 with hab | ⟨hab, hr1⟩
    · rcases h2 with hbc | ⟨hbc, _⟩
      · exact Or.inl (by omega)
      · exact Or.inl (by omega)
    · rcases h2 with hbc | ⟨hbc, hr2⟩
      · exact Or.inl (by omega)
      · exact Or.inr ⟨by omega, ltChars_trans as bs cs hr1 hr2⟩

theorem ltStr_irrefl (s : String) : ltStr s s = false := ltChars_irrefl s.data

theorem ltStr_eq_of_not {a b : String} (h1 : ltStr a b = false) (h2 : ltStr b a = false) :
    a = b :=
  String.ext (ltChars_eq_of_not a.data b.data h1 h2)

theorem ltStr_trans {a b c : String} (h1 : ltStr a b = true) (h2 : ltStr b c = true) :
    ltStr a c = true := ltChars_trans a.data b.data c.data h1 h2

theorem ltStr_ne {a b : String} (h : ltStr a b = true) : a ≠ b := by
  intro he; subst he; rw [ltStr_irrefl] at h; exact Bool.false_ne_true h

theorem ltStr_asymm {a b : String} (h : ltStr a b = true) : ltStr b a = false := by
  cases hba : ltStr b a with
  | false => rfl
  | true => exact absurd rfl (ltStr_ne (ltStr_trans h hba))

/-- Insert `(k, v)` into an association list kept sorted strictly by key,
overwriting any existing binding of `k` (Python dict assignment). -/
def insKV {α : Type} (k : String) (v : α) : List (String × α) → List (String × α)
  | [] => [(k, v)]
  | (k1, v1) :: rest =>
    if ltStr k k1 then (k, v) :: (k1, v1) :: rest
    else if ltStr k1 k then (k1, v1) :: insKV k v rest
    else (k, v) :: rest

/-- Canonical form of a Python dict given as a list of key/value pairs in
insertion order (later bindings of the same key win). -/
def canonList {α : Type} (l : List (String × α)) : List (String × α) :=
  l.foldl (fun m p => insKV p.1 p.2 m) []

/-- Python dict lookup on the canonical association list. -/
def lookV {α : Type} (k : String) : List (String × α) → Option α
  | [] => none
  | (k1, v1) :: rest => if k = k1 then some v1 else lookV k rest

/-- Python `a.update(b)`: every binding of `b` overwrites/extends `a`. -/
def pyUpdate {α : Type} (a b : List (String × α)) : List (String × α) :=
  b.foldl (fun m p => insKV p.1 p.2 m) a

/-- `x` is a strict lower bound for the keys at the head of the list. -/
def lbB {α : Type} (x : String) : List (String × α) → Bool
  | [] => true
  | q :: _ => ltStr x q.1

/-- The association list is sorted strictly by key (canonical dict form). -/
def sortedB {α : Type} : List (String × α) → Bool
  | [] => true
  | p :: rest => lbB p.1 rest && sortedB rest

theorem sortedB_cons_iff {α : Type} {p : String × α} {m : List (String × α)} :
    sortedB (p :: m) = true ↔ lbB p.1 m = true ∧ sortedB m = true := by
  simp [sortedB]

theorem sortedB_cons {α : Type} {p : String × α} {m : List (String × α)}
    (h : sortedB (p :: m) = true) : sortedB m = true :=
  (sortedB_cons_iff.mp h).2

theorem sortedB_cons_all {α : Type} {k1 : String} {v1 : α} :
    ∀ {m : List (String × α)}, sortedB ((k1, v1) :: m) = true →
    ∀ p ∈ m, ltStr k1 p.1 = true := by
  intro m
  induction m generalizing k1 v1 with
  | nil => intro _ p hp; simp at hp
  | cons q rest ih =>
    intro h p hp
    rcases sortedB_cons_iff.mp h with ⟨hlb, hrest⟩
    rcases List.mem_cons.mp hp with he | hm
    · subst he; exact hlb
    · obtain ⟨k2, v2⟩ := q
      exact ltStr_trans hlb (ih hrest p hm)

theorem lookV_eq_none_of_sorted {α : Type} {k : String} {v : α}
    {m : List (String × α)} (h : sortedB ((k, v) :: m) = true) :
    lookV k m = none := by
  induction m with
  | nil => rfl
  | cons q rest ih =>
    obtain ⟨k2, v2⟩ := q
    have hk : ltStr k k2 = true := sortedB_cons_all h (k2, v2) (by simp)
    have hne : k ≠ k2 := ltStr_ne hk
    simp only [lookV, hne, if_false]
    apply ih
    rw [sortedB_cons_iff]
    refine ⟨?_, sortedB_cons (sortedB_cons h)⟩
    cases rest with
    | nil => rfl
    | cons r rrest =>
      exact sortedB_cons_all h r (by simp)

theorem lookV_insKV {α : Type} (k k1 : String) (v : α) :
    ∀ m : List (String × α),
    lookV k (insKV k1 v m) = if k = k1 then some v else lookV k m
  | [] => by simp [insKV, lookV]
  | (k2, v2) :: rest => by
    by_cases h12 : ltStr k1 k2 = true
    · simp only [insKV, h12, if_true]
      rfl
    · by_cases h21 : ltStr k2 k1 = true
      · simp only [insKV, h12, Bool.false_eq_true, if_false, h21, if_true, lookV]
        by_cases hk2 : k = k2
        · subst hk2
          have hne : ¬ k = k1 := fun he => by
            subst he; rw [ltStr_irrefl] at h21; exact Bool.false_ne_true h21
          simp [hne]
        · simp [hk2, lookV_insKV k k1 v rest]
      · have hq : k1 = k2 :=
          ltStr_eq_of_not (Bool.eq_false_iff.mpr h12) (Bool.eq_false_iff.mpr h21)
        subst hq
        simp only [insKV, ltStr_irrefl, Bool.false_eq_true, if_false, lookV]
        by_cases hk : k = k1
        · simp [hk]
        · simp [hk]

theorem insKV_sorted_lb {α : Type} (k : String) (v : α) :
    ∀ m : List (String × α), sortedB m = true →
    sortedB (insKV k v m) = true ∧
      ∀ x : String, ltStr x k = true → lbB x m = true → lbB x (insKV k v m) = true := by
  intro m
  induction m with
  | nil =>
    intro _
    exact ⟨rfl, fun x hx _ => hx⟩
  | cons p rest ih =>
    obtain ⟨k1, v1⟩ := p
    intro h
    rcases sortedB_cons_iff.mp h with ⟨hlb, hrest⟩
    rcases ih hrest with ⟨ihs, ihlb⟩
    by_cases h1 : ltStr k k1 = true
    · refine ⟨?_, ?_⟩
      · simp only [insKV, h1, if_true]
        rw [sortedB_cons_iff]
        exact ⟨h1, h⟩
      · intro x hx _
        simp only [insKV, h1, if_true, lbB]
        exact hx
    · by_cases h2 : ltStr k1 k = true
      · refine ⟨?_, ?_⟩
        · simp only [insKV, h1, Bool.false_eq_true, if_false, h2, if_true]
          rw [sortedB_cons_iff]
          exact ⟨ihlb k1 h2 hlb, ihs⟩
        · intro x hx hxm
          simp only [insKV, h1, Bool.false_eq_true, if_false, h2, if_true, lbB]
          simp only [lbB] at hxm
          exact hxm
      · have hq : k = k1 := ltStr_eq_of_not
          (Bool.eq_false_iff.mpr h1) (Bool.eq_false_iff.mpr h2)
        subst hq
        refine ⟨?_, ?_⟩
        · simp only [insKV, ltStr_irrefl, Bool.false_eq_true, if_false]
          rw [sortedB_cons_iff]
          exact ⟨hlb, hrest⟩
        · intro x hx _
          simp only [insKV, ltStr_irrefl, Bool.false_eq_true, if_false, lbB]
          exact hx

theorem insKV_sorted {α : Type} (k : String) (v : α) {m : List (String × α)}
    (h : sortedB m = true) : sortedB (insKV k v m) = true :=
  (insKV_sorted_lb k v m h).1

theorem foldl_insKV_sorted {α : Type} :
    ∀ (l : List (String × α)) (acc : List (String × α)), sortedB acc = true →
    sortedB (l.foldl (fun m p => insKV p.1 p.2 m) acc) = true
  | [], _, h => h
  | p :: rest, acc, h =>
    foldl_insKV_sorted rest (insKV p.1 p.2 acc) (insKV_sorted p.1 p.2 h)

theorem canonList_sorted {α : Type} (l : List (String × α)) :
    sortedB (canonList l) = true := foldl_insKV_sorted l [] rfl

theorem pyUpdate_sorted {α : Type} {a : List (String × α)} (b : List (String × α))
    (h : sortedB a = true) : sortedB (pyUpdate a b) = true :=
  foldl_insKV_sorted b a h

theorem lookV_pyUpdate {α : Type} (k : String) :
    ∀ (b a : List (String × α)), sortedB b = true →
    lookV k (pyUpdate a b) =
      match lookV k b with
      | some v => some v
      | none => lookV k a
  | [], a, _ => by simp [pyUpdate, lookV]
  | (k1, v1) :: rest, a, hb => by
    have step : pyUpdate a ((k1, v1) :: rest) = pyUpdate (insKV k1 v1 a) rest := rfl
    rw [step, lookV_pyUpdate k rest (insKV k1 v1 a) (sortedB_cons hb)]
    by_cases hk : k = k1
    · subst hk
      have hnone : lookV k rest = none := lookV_eq_none_of_sorted hb
      simp [hnone, lookV, lookV_insKV]
    · simp only [lookV, hk, if_false, lookV_insKV, hk]

theorem insKV_append_last {α : Type} (k : String) (v : α) :
    ∀ acc : List (String × α), (∀ p ∈ acc, ltStr p.1 k = true) →
    insKV k v acc = acc ++ [(k, v)]
  | [], _ => rfl
  | (k1, v1) :: rest, h => by
    have h1 : ltStr k1 k = true := h (k1, v1) (by simp)
    have h2 : ltStr k k1 = false := ltStr_asymm h1
    simp only [insKV, h2, Bool.false_eq_true, if_false, h1, if_true, List.cons_append,
      List.cons.injEq, true_and]
    exact insKV_append_last k v rest (fun p hp => h p (by simp [hp]))

theorem sorted_append_mid {α : Type} (k : String) (v : α) :
    ∀ (acc l : List (String × α)), sortedB (acc ++ (k, v) :: l) = true →
    ∀ p ∈ acc, ltStr p.1 k = true := by
  intro acc
  induction acc with
  | nil => intro l _ p hp; simp at hp
  | cons q acc2 ih =>
    obtain ⟨k1, v1⟩ := q
    intro l h p hp
    rcases List.mem_cons.mp hp with he | hm
    · subst he
      exact sortedB_cons_all h (k, v) (by simp)
    · exact ih l (sortedB_cons h) p hm

theorem foldl_insKV_sorted_id {α : Type} :
    ∀ (l acc : List (String × α)), sortedB (acc ++ l) = true →
    l.foldl (fun m p => insKV p.1 p.2 m) acc = acc ++ l
  | [], acc, _ => by simp
  | (k, v) :: rest, acc, h => by
    have hstep : insKV k v acc = acc ++ [(k, v)] :=
      insKV_append_last k v acc (sorted_append_mid k v acc rest h)
    have hs : sortedB ((acc ++ [(k, v)]) ++ rest) = true := by
      rw [List.append_assoc]
      simpa using h
    calc ((k, v) :: rest).foldl (fun m p => insKV p.1 p.2 m) acc
        = rest.foldl (fun m p => insKV p.1 p.2 m) (insKV k v acc) := rfl
      _ = rest.foldl (fun m p => insKV p.1 p.2 m) (acc ++ [(k, v)]) := by rw [hstep]
      _ = (acc ++ [(k, v)]) ++ rest := foldl_insKV_sorted_id rest (acc ++ [(k, v)]) hs
      _ = acc ++ (k, v) :: rest := by simp

theorem canonList_id_of_sorted {α : Type} {l : List (String × α)}
    (h : sortedB l = true) : canonList l = l := by
  have := foldl_insKV_sorted_id l [] (by simpa using h)
  simpa [canonList] using this

/-- Apply the `json` tuple-to-list coercion to every value of a dict. -/
def coerceMap : List (String × PyVal) → List (String × PyVal)
  | [] => []
  | (k, v) :: rest => (k, coerceVal v) :: coerceMap rest

theorem coerceMap_insKV (k : String) (v : PyVal) :
    ∀ m, coerceMap (insKV k v m) = insKV k (coerceVal v) (coerceMap m)
  | [] => rfl
  | (k1, v1) :: rest => by
    by_cases h1 : ltStr k k1 = true
    · simp only [insKV, h1, if_true, coerceMap]
    · by_cases h2 : ltStr k1 k = true
      · simp only [insKV, h1, Bool.false_eq_true, if_false, h2, if_true, coerceMap,
          List.cons.injEq, true_and]
        exact coerceMap_insKV k v rest
      · simp only [insKV, h1, h2, Bool.false_eq_true, if_false, coerceMap]

theorem coerceMap_foldl_insKV :
    ∀ (l acc : List (String × PyVal)),
    coerceMap (l.foldl (fun m p => insKV p.1 p.2 m) acc) =
      (coerceMap l).foldl (fun m p => insKV p.1 p.2 m) (coerceMap acc)
  | [], _ => rfl
  | (k, v) :: rest, acc => by
    have h1 : coerceMap ((k, v) :: rest) = (k, coerceVal v) :: coerceMap rest := rfl
    rw [h1]
    have h2 : ((k, v) :: rest).foldl (fun m p => insKV p.1 p.2 m) acc =
        rest.foldl (fun m p => insKV p.1 p.2 m) (insKV k v acc) := rfl
    rw [h2]
    rw [coerceMap_foldl_insKV rest (insKV k v acc), coerceMap_insKV]
    rfl

theorem coerceMap_canonList (l : List (String × PyVal)) :
    coerceMap (canonList l) = canonList (coerceMap l) := by
  unfold canonList
  rw [coerceMap_foldl_insKV]
  rfl

theorem lbB_coerceMap (x : String) (m : List (String × PyVal)) :
    lbB x (coerceMap m) = lbB x m := by
  cases m with
  | nil => rfl
  | cons p rest => obtain ⟨k, v⟩ := p; rfl

theorem sortedB_coerceMap (m : List (String × PyVal)) :
    sortedB (coerceMap m) = sortedB m := by
  induction m with
  | nil => rfl
  | cons p rest ih =>
    obtain ⟨k, v⟩ := p
    simp only [coerceMap, sortedB, lbB_coerceMap, ih]

/-- Python 2 `str.upper` on one char (ASCII, as the C locale gives). -/
def upA (c : Char) : Char :=
  if 97 ≤ c.toNat ∧ c.toNat ≤ 122 then Char.ofNat (c.toNat - 32) else c

/-- Python 2 `str.lower` on one char (ASCII, as the C locale gives). -/
def lowA (c : Char) : Char :=
  if 65 ≤ c.toNat ∧ c.toNat ≤ 90 then Char.ofNat (c.toNat + 32) else c

/-- ASCII letter test (Python 2 `str` `isalpha` under the C locale). -/
def isAlphaA (c : Char) : Bool :=
  (65 ≤ c.toNat && c.toNat ≤ 90) || (97 ≤ c.toNat && c.toNat ≤ 122)

/-- One step of `str.title`: uppercase a letter after a non-letter,
lowercase a letter after a letter, pass all other chars through. -/
def titleChar (prev : Bool) (c : Char) : Char :=
  if isAlphaA c then (if prev then lowA c else upA c) else c

def titleChars : Bool → List Char → List Char
  | _, [] => []
  | prev, c :: rest => titleChar prev c :: titleChars (isAlphaA c) rest

/-- `native.title()` in `Locale.getLanguages`.  Cased letters are modelled
over the ASCII range: this is exactly Python 2 `str.title()` under the C
locale; for `unicode` values Python would additionally case accented
letters, which this model passes through unchanged. -/
def pyTitle (s : String) : String := ⟨titleChars false s.data⟩

theorem toNat_ofNat_lt {n : Nat} (h : n < 55296) : (Char.ofNat n).toNat = n := by
  unfold Char.ofNat
  rw [dif_pos (Or.inl h)]
  rfl

theorem boolEq_of_iff {a b : Bool} (h : (a = true) ↔ (b = true)) : a = b := by
  cases a <;> cases b <;> simp_all

theorem isAlphaA_iff {c : Char} :
    isAlphaA c = true ↔ (65 ≤ c.toNat ∧ c.toNat ≤ 90) ∨ (97 ≤ c.toNat ∧ c.toNat ≤ 122) := by
  simp [isAlphaA]

theorem isAlphaA_upA (c : Char) : isAlphaA (upA c) = isAlphaA c := by
  apply boolEq_of_iff
  rw [isAlphaA_iff, isAlphaA_iff]
  unfold upA
  by_cases h : 97 ≤ c.toNat ∧ c.toNat ≤ 122
  · rw [if_pos h, toNat_ofNat_lt (by omega)]
    omega
  · rw [if_neg h]

theorem isAlphaA_lowA (c : Char) : isAlphaA (lowA c) = isAlphaA c := by
  apply boolEq_of_iff
  rw [isAlphaA_iff, isAlphaA_iff]
  unfold lowA
  by_cases h : 65 ≤ c.toNat ∧ c.toNat ≤ 90
  · rw [if_pos h, toNat_ofNat_lt (by omega)]
    omega
  · rw [if_neg h]

theorem upA_upA (c : Char) : upA (upA c) = upA c := by
  unfold upA
  by_cases h : 97 ≤ c.toNat ∧ c.toNat ≤ 122
  · rw [if_pos h, if_neg (by rw [toNat_ofNat_lt (by omega)]; omega)]
  · rw [if_neg h, if_neg h]

theorem lowA_lowA (c : Char) : lowA (lowA c) = lowA c := by
  unfold lowA
  by_cases h : 65 ≤ c.toNat ∧ c.toNat ≤ 90
  · rw [if_pos h, if_neg (by rw [toNat_ofNat_lt (by omega)]; omega)]
  · rw [if_neg h, if_neg h]

theorem isAlphaA_titleChar (prev : Bool) (c : Char) :
    isAlphaA (titleChar prev c) = isAlphaA c := by
  cases prev <;> by_cases ha : isAlphaA c = true <;>
    simp [titleChar, ha, isAlphaA_upA, isAlphaA_lowA]

theorem titleChar_idem (prev : Bool) (c : Char) :
    titleChar prev (titleChar prev c) = titleChar prev c := by
  cases prev <;> by_cases ha : isAlphaA c = true <;>
    simp [titleChar, ha, isAlphaA_upA, isAlphaA_lowA, upA_upA, lowA_lowA]

theorem titleChars_idem : ∀ (prev : Bool) (l : List Char),
    titleChars prev (titleChars prev l) = titleChars prev l
  | _, [] => rfl
  | prev, c :: rest => by
    simp only [titleChars, isAlphaA_titleChar, titleChar_idem, List.cons.injEq, true_and]
    exact titleChars_idem (isAlphaA c) rest

theorem pyTitle_idem (s : String) : pyTitle (pyTitle s) = pyTitle s :=
  String.ext (titleChars_idem false s.data)

theorem pyTitle_ne_empty {s : String} (h : s ≠ "") : pyTitle s ≠ "" := by
  intro hc
  apply h
  have hdata : titleChars false s.data = [] := congrArg String.data hc
  cases hd : s.data with
  | nil => exact String.ext (by simp [hd])
  | cons c rest => rw [hd] at hdata; simp [titleChars] at hdata

/-- One locale registry (the `icu` or `babel` adapter of class `Locale`):
`available` is whether its Python module imports (`ImportError` otherwise),
`locales` is `getAvailableLocales()`, and `english`/`native` give the two
display names for a code (`""` models an unknown/absent name). -/
structure RawSource where
  available : Bool
  locales : List String
  english : String → String
  native : String → String

/-- `if native: native = native.title()` — the native name actually stored. -/
def storeName (n : String) : String := if n = "" then n else pyTitle n

/-- One loop iteration of `Locale.getLanguages`: skip the code entirely when
both names are empty (`if not (english or native): continue`), otherwise
store `output[code] = (english, native)` with the native name title-cased. -/
def addLang (m : List (String × PyVal)) (code e n0 : String) : List (String × PyVal) :=
  if e = "" ∧ n0 = "" then m
  else insKV code (PyVal.vtup e (storeName n0)) m

namespace Locale

/-- `Locale.getAvailableSources()`: first item is the default source, the
last is the game's PO headers. -/
def getAvailableSources : List String := ["icu", "babel", "pofiles"]

end Locale

/-- `set(locales) & set(available)` when a locale filter is given; the
empty list models Python's falsy `None`/`[]`, meaning all available. -/
def selectedLocales (src : RawSource) (locales : List String) : List String :=
  if locales = [] then src.locales else locales.filter (fun c => src.locales.contains c)

namespace Locale

/-- `Locale.getLanguages(locales, tupletype=True, source=…)` for a registry
source: a dict from locale code to a `(english, native)` tuple. -/
def getLanguages (src : RawSource) (locales : List String) : List (String × PyVal) :=
  (selectedLocales src locales).foldl
    (fun m code => addLang m code (src.english code) (src.native code)) []

end Locale

/-- One `messages_<code>.po` translation catalog: its locale code (from the
filename) and its metadata header fields. -/
structure PoCatalog where
  code : String
  metadata : List (String × String)
  deriving DecidableEq, Repr

/-- The `pofiles` branch of `Locale.getLanguages`: reads
`po.metadata['Language-Name']` and `po.metadata['Language-Native-Name']`
for each catalog in listing order; a missing field raises `KeyError`
(modelled as `Except.error`), aborting the whole call. -/
def getLanguagesPoAux (acc : List (String × PyVal)) :
    List PoCatalog → Except String (List (String × PyVal))
  | [] => .ok acc
  | cat :: rest =>
    match lookV "Language-Name" cat.metadata with
    | none => .error "KeyError: Language-Name"
    | some e =>
      match lookV "Language-Native-Name" cat.metadata with
      | none => .error "KeyError: Language-Native-Name"
      | some n0 => getLanguagesPoAux (addLang acc cat.code e n0) rest

namespace Locale

/-- `Locale.getLanguages(source='pofiles')`. -/
def getLanguagesPo (cats : List PoCatalog) : Except String (List (String × PyVal)) :=
  getLanguagesPoAux [] cats

end Locale

theorem addLang_sorted {m : List (String × PyVal)} (code e n0 : String)
    (h : sortedB m = true) : sortedB (addLang m code e n0) = true := by
  unfold addLang
  by_cases hskip : e = "" ∧ n0 = ""
  · rw [if_pos hskip]; exact h
  · rw [if_neg hskip]; exact insKV_sorted _ _ h

theorem foldl_addLang_sorted (eng nat0 : String → String) :
    ∀ (codes : List String) (m : List (String × PyVal)), sortedB m = true →
    sortedB (codes.foldl (fun m c => addLang m c (eng c) (nat0 c)) m) = true
  | [], _, h => h
  | c :: rest, m, h =>
    foldl_addLang_sorted eng nat0 rest (addLang m c (eng c) (nat0 c))
      (addLang_sorted c (eng c) (nat0 c) h)

theorem getLanguages_sorted (src : RawSource) (locales : List String) :
    sortedB (Locale.getLanguages src locales) = true :=
  foldl_addLang_sorted _ _ _ [] rfl

theorem getLanguagesPoAux_sorted :
    ∀ (cats : List PoCatalog) (acc : List (String × PyVal)), sortedB acc = true →
    ∀ m, getLanguagesPoAux acc cats = .ok m → sortedB m = true
  | [], acc, h, m, hok => by
    simp only [getLanguagesPoAux, Except.ok.injEq] at hok
    rw [← hok]; exact h
  | cat :: rest, acc, h, m, hok => by
    simp only [getLanguagesPoAux] at hok
    cases h1 : lookV "Language-Name" cat.metadata with
    | none => rw [h1] at hok; exact absurd hok (by simp)
    | some e =>
      rw [h1] at hok
      cases h2 : lookV "Language-Native-Name" cat.metadata with
      | none => rw [h2] at hok; exact absurd hok (by simp)
      | some n0 =>
        rw [h2] at hok
        exact getLanguagesPoAux_sorted rest (addLang acc cat.code e n0)
          (addLang_sorted _ _ _ h) m hok

theorem getLanguagesPo_sorted {cats : List PoCatalog} {m : List (String × PyVal)}
    (h : Locale.getLanguagesPo cats = .ok m) : sortedB m = true :=
  getLanguagesPoAux_sorted cats [] rfl m h

/-- Every value a `getLanguages`-style source produces: a tuple whose names
are not both empty and whose native part, when present, is title-cased. -/
def goodVal (v : PyVal) : Prop :=
  ∃ e n, v = PyVal.vtup e n ∧ (e ≠ "" ∨ n ≠ "") ∧ (n ≠ "" → pyTitle n = n)

theorem addLang_good {m : List (String × PyVal)}
    (hm : ∀ k v, lookV k m = some v → goodVal v) (code e n0 : String) :
    ∀ k v, lookV k (addLang m code e n0) = some v → goodVal v := by
  intro k v h
  unfold addLang at h
  by_cases hskip : e = "" ∧ n0 = ""
  · rw [if_pos hskip] at h; exact hm k v h
  · rw [if_neg hskip] at h
    rw [lookV_insKV] at h
    by_cases hk : k = code
    · rw [if_pos hk] at h
      have hv : v = PyVal.vtup e (storeName n0) := by
        injection h with h; exact h.symm
      subst hv
      refine ⟨e, storeName n0, rfl, ?_, ?_⟩
      · by_cases he : e = ""
        · right
          have hn0 : n0 ≠ "" := fun hn => hskip ⟨he, hn⟩
          unfold storeName
          rw [if_neg hn0]
          exact pyTitle_ne_empty hn0
        · left; exact he
      · intro hne
        unfold storeName at hne ⊢
        by_cases hn0 : n0 = ""
        · rw [if_pos hn0] at hne; exact absurd hn0 hne
        · rw [if_neg hn0]; exact pyTitle_idem n0
    · rw [if_neg hk] at h; exact hm k v h

theorem foldl_addLang_good (eng nat0 : String → String) :
    ∀ (codes : List String) (m : List (String × PyVal)),
    (∀ k v, lookV k m = some v → goodVal v) →
    ∀ k v, lookV k (codes.foldl (fun m c => addLang m c (eng c) (nat0 c)) m) = some v →
      goodVal v
  | [], _, hm => hm
  | c :: rest, m, hm =>
    foldl_addLang_good eng nat0 rest (addLang m c (eng c) (nat0 c))
      (addLang_good hm c (eng c) (nat0 c))

theorem getLanguages_good (src : RawSource) (locales : List String) :
    ∀ k v, lookV k (Locale.getLanguages src locales) = some v → goodVal v :=
  foldl_addLang_good _ _ _ [] (fun k v h => by simp [lookV] at h)

theorem getLanguagesPoAux_good :
    ∀ (cats : List PoCatalog) (acc : List (String × PyVal)),
    (∀ k v, lookV k acc = some v → goodVal v) →
    ∀ m, getLanguagesPoAux acc cats = .ok m →
    ∀ k v, lookV k m = some v → goodVal v
  | [], acc, hm, m, hok => by
    simp only [getLanguagesPoAux, Except.ok.injEq] at hok
    rw [← hok]; exact hm
  | cat :: rest, acc, hm, m, hok => by
    simp only [getLanguagesPoAux] at hok
    cases h1 : lookV "Language-Name" cat.metadata with
    | none => rw [h1] at hok; exact absurd hok (by simp)
    | some e =>
      rw [h1] at hok
      cases h2 : lookV "Language-Native-Name" cat.metadata with
      | none => rw [h2] at hok; exact absurd hok (by simp)
      | some n0 =>
        rw [h2] at hok
        exact getLanguagesPoAux_good rest (addLang acc cat.code e n0)
          (addLang_good hm cat.code e n0) m hok

theorem getLanguagesPo_good {cats : List PoCatalog} {m : List (String × PyVal)}
    (h : Locale.getLanguagesPo cats = .ok m) :
    ∀ k v, lookV k m = some v → goodVal v :=
  getLanguagesPoAux_good cats [] (fun k v hkv => by simp [lookV] at hkv) m h

theorem foldl_addLang_absent (eng nat0 : String → String) (k : String)
    (he : eng k = "") (hn : nat0 k = "") :
    ∀ (codes : List String) (m : List (String × PyVal)), lookV k m = none →
    lookV k (codes.foldl (fun m c => addLang m c (eng c) (nat0 c)) m) = none
  | [], _, h => h
  | c :: rest, m, h => by
    apply foldl_addLang_absent eng nat0 k he hn rest
    show lookV k (addLang m c (eng c) (nat0 c)) = none
    unfold addLang
    by_cases hskip : eng c = "" ∧ nat0 c = ""
    · rw [if_pos hskip]; exact h
    · rw [if_neg hskip, lookV_insKV]
      have hkc : k ≠ c := fun hkc => by subst hkc; exact hskip ⟨he, hn⟩
      rw [if_neg hkc]
      exact h

theorem getLanguages_absent (src : RawSource) (locales : List String) {k : String}
    (he : src.english k = "") (hn : src.native k = "") :
    lookV k (Locale.getLanguages src locales) = none :=
  foldl_addLang_absent _ _ k he hn _ [] rfl

theorem getLanguagesPoAux_error_of_missing {cat : PoCatalog}
    (hmiss : lookV "Language-Name" cat.metadata = none ∨
      lookV "Language-Native-Name" cat.metadata = none) :
    ∀ (cats : List PoCatalog), cat ∈ cats →
    ∀ acc, ∃ msg, getLanguagesPoAux acc cats = .error msg := by
  intro cats
  induction cats with
  | nil => intro hmem; simp at hmem
  | cons q rest ih =>
    intro hmem acc
    rcases List.mem_cons.mp hmem with he | hm
    · subst he
      rcases hmiss with h1 | h2
      · exact ⟨"KeyError: Language-Name", by simp [getLanguagesPoAux, h1]⟩
      · cases hq : lookV "Language-Name" cat.metadata with
        | none => exact ⟨"KeyError: Language-Name", by simp [getLanguagesPoAux, hq]⟩
        | some e =>
          exact ⟨"KeyError: Language-Native-Name", by simp [getLanguagesPoAux, hq, h2]⟩
    · cases hq : lookV "Language-Name" q.metadata with
      | none => exact ⟨"KeyError: Language-Name", by simp [getLanguagesPoAux, hq]⟩
      | some e =>
        cases hq2 : lookV "Language-Native-Name" q.metadata with
        | none => exact ⟨"KeyError: Language-Native-Name", by simp [getLanguagesPoAux, hq, hq2]⟩
        | some n0 =>
          rcases ih hm (addLang acc q.code e n0) with ⟨msg, hmsg⟩
          exact ⟨msg, by simp [getLanguagesPoAux, hq, hq2, hmsg]⟩

theorem getLanguagesPo_error_of_missing {cat : PoCatalog} {cats : List PoCatalog}
    (hmem : cat ∈ cats)
    (hmiss : lookV "Language-Name" cat.metadata = none ∨
      lookV "Language-Native-Name" cat.metadata = none) :
    ∃ msg, Locale.getLanguagesPo cats = .error msg :=
  getLanguagesPoAux_error_of_missing hmiss cats hmem []

/-! JSON serialisation.  `Locale.saveLanguagesData` performs
`json.dump(languages, fd, indent=0, separators=(',', ': '), sort_keys=True)`
followed by `fd.write('\n')`; with `indent=0` every structural newline
carries zero spaces of indentation, and `ensure_ascii` (the default)
escapes every char outside printable ASCII as `\uXXXX` (lower-case hex,
surrogate pairs for astral chars).  `Locale.loadLanguagesData` is
`json.load`, restricted to the shapes this data file can hold (objects
mapping strings to arrays of strings or to flat string-valued objects);
it accepts arbitrary whitespace and both hex cases, like `json.load`. -/

def hexDigit (d : Nat) : Char :=
  if d < 10 then Char.ofNat (48 + d) else Char.ofNat (87 + d)

def hex4 (n : Nat) : List Char :=
  [hexDigit (n / 4096 % 16), hexDigit (n / 256 % 16), hexDigit (n / 16 % 16), hexDigit (n % 16)]

/-- `json` escaping of a single char (Python 2 `json.encoder`, with
`ensure_ascii=True`): short escapes for the common controls, raw output
only for printable ASCII other than `"` and `\`, and `\uXXXX` otherwise. -/
def escapeChar (c : Char) : List Char :=
  if c = '"' then ['\\', '"']
  else if c = '\\' then ['\\', '\\']
  else if c.toNat = 8 then ['\\', 'b']
  else if c.toNat = 9 then ['\\', 't']
  else if c.toNat = 10 then ['\\', 'n']
  else if c.toNat = 12 then ['\\', 'f']
  else if c.toNat = 13 then ['\\', 'r']
  else if 32 ≤ c.toNat ∧ c.toNat ≤ 126 then [c]
  else if c.toNat < 65536 then '\\' :: 'u' :: hex4 c.toNat
  else ('\\' :: 'u' :: hex4 (55296 + (c.toNat - 65536) / 1024)) ++
       ('\\' :: 'u' :: hex4 (56320 + (c.toNat - 65536) % 1024))

def escapeChars : List Char → List Char
  | [] => []
  | c :: rest => escapeChar c ++ escapeChars rest

def encStr (s : String) : List Char := '"' :: (escapeChars s.data ++ ['"'])

def encArrItems : List String → List Char
  | [] => []
  | [s] => encStr s
  | s :: rest => encStr s ++ ',' :: '\n' :: encArrItems rest

def encList (items : List String) : List Char :=
  match items with
  | [] => ['[', ']']
  | _ => '[' :: '\n' :: (encArrItems items ++ '\n' :: [']'])

def encObj (e n : String) : List Char :=
  '{' :: '\n' :: (encStr "english" ++ ':' :: ' ' ::
    (encStr e ++ ',' :: '\n' :: (encStr "native" ++ ':' :: ' ' ::
      (encStr n ++ '\n' :: ['}']))))

/-- `json.dump` of one value: a tuple and a list serialise identically. -/
def encVal : PyVal → List Char
  | .vtup e n => encList [e, n]
  | .vlst items => encList items
  | .vobj e n => encObj e n

def encEntry (k : String) (v : PyVal) : List Char := encStr k ++ ':' :: ' ' :: encVal v

def encEntries : List (String × PyVal) → List Char
  | [] => []
  | [(k, v)] => encEntry k v
  | (k, v) :: rest => encEntry k v ++ ',' :: '\n' :: encEntries rest

def encTop (m : List (String × PyVal)) : List Char :=
  match m with
  | [] => ['{', '}']
  | _ => '{' :: '\n' :: (encEntries m ++ '\n' :: ['}'])

namespace Locale

/-- `Locale.saveLanguagesData(languages, filename)`: the exact byte content
written to the data file (`json.dump(…, indent=0, separators=(',', ': '),
sort_keys=True)` plus the explicit EOF newline). -/
def saveLanguagesData (languages : List (String × PyVal)) : String :=
  ⟨encTop (canonList languages) ++ ['\n']⟩

end Locale

def hexVal (c : Char) : Option Nat :=
  if 48 ≤ c.toNat ∧ c.toNat ≤ 57 then some (c.toNat - 48)
  else if 97 ≤ c.toNat ∧ c.toNat ≤ 102 then some (c.toNat - 87)
  else if 65 ≤ c.toNat ∧ c.toNat ≤ 70 then some (c.toNat - 55)
  else none

def isWs (c : Char) : Bool := c = ' ' || c = '\n' || c = '\t' || c = '\r'

def skipWs : List Char → List Char
  | [] => []
  | c :: rest => if isWs c then skipWs rest else c :: rest

/-- Read four hex digits, returning their value and the remaining input. -/
def readHex4 : List Char → Option (Nat × List Char)
  | h1 :: h2 :: h3 :: h4 :: rest =>
    match hexVal h1, hexVal h2, hexVal h3, hexVal h4 with
    | some x1, some x2, some x3, some x4 => some (4096 * x1 + 256 * x2 + 16 * x3 + x4, rest)
    | _, _, _, _ => none
  | _ => none

/-- JSON string body after the opening quote (with fuel, one unit per
decoded char): returns the decoded chars and the remaining input after the
closing quote.  Follows `json.load` in strict mode (raw control chars
rejected), except that a lone surrogate escape is rejected instead of
producing an unpaired surrogate, which Lean's `Char` cannot represent
(the encoder never emits one). -/
def decStrBody : Nat → List Char → Option (List Char × List Char)
  | 0, _ => none
  | _ + 1, [] => none
  | fuel + 1, c :: rest =>
    if c = '"' then some ([], rest)
    else if c = '\\' then
      match rest with
      | [] => none
      | e :: rest2 =>
        if e = '"' then (decStrBody fuel rest2).map (fun p => ('"' :: p.1, p.2))
        else if e = '\\' then (decStrBody fuel rest2).map (fun p => ('\\' :: p.1, p.2))
        else if e = '/' then (decStrBody fuel rest2).map (fun p => ('/' :: p.1, p.2))
        else if e = 'b' then (decStrBody fuel rest2).map (fun p => (Char.ofNat 8 :: p.1, p.2))
        else if e = 'f' then (decStrBody fuel rest2).map (fun p => (Char.ofNat 12 :: p.1, p.2))
        else if e = 'n' then (decStrBody fuel rest2).map (fun p => ('\n' :: p.1, p.2))
        else if e = 'r' then (decStrBody fuel rest2).map (fun p => (Char.ofNat 13 :: p.1, p.2))
        else if e = 't' then (decStrBody fuel rest2).map (fun p => ('\t' :: p.1, p.2))
        else if e = 'u' then
          match readHex4 rest2 with
          | none => none
          | some (n, rest3) =>
            if n < 55296 ∨ 57344 ≤ n then
              (decStrBody fuel rest3).map (fun p => (Char.ofNat n :: p.1, p.2))
            else if n < 56320 then
              match rest3 with
              | s1 :: s2 :: rest4 =>
                if s1 = '\\' ∧ s2 = 'u' then
                  match readHex4 rest4 with
                  | none => none
                  | some (mlow, rest5) =>
                    if 56320 ≤ mlow ∧ mlow < 57344 then
                      (decStrBody fuel rest5).map
                        (fun p => (Char.ofNat (65536 + 1024 * (n - 55296) +
                          (mlow - 56320)) :: p.1, p.2))
                    else none
                else none
              | _ => none
            else none
        else none
    else if 32 ≤ c.toNat then (decStrBody fuel rest).map (fun p => (c :: p.1, p.2))
    else none

/-- Parse a JSON string token (leading whitespace allowed). -/
def decStr (cs : List Char) : Option (String × List Char) :=
  match skipWs cs with
  | [] => none
  | c :: rest =>
    if c = '"' then (decStrBody (rest.length + 1) rest).map (fun p => (⟨p.1⟩, p.2)) else none

/-- Items of a non-empty array of strings, consuming the closing `]`. -/
def decArrItemsGo : Nat → List Char → Option (List String × List Char)
  | 0, _ => none
  | fuel + 1, cs =>
    match decStr cs with
    | none => none
    | some (s, rest) =>
      match skipWs rest with
      | [] => none
      | c :: rest2 =>
        if c = ',' then (decArrItemsGo fuel rest2).map (fun p => (s :: p.1, p.2))
        else if c = ']' then some ([s], rest2)
        else none

/-- Pairs of a non-empty object with string values, consuming the `}`. -/
def decObjPairsGo : Nat → List Char → Option (List (String × String) × List Char)
  | 0, _ => none
  | fuel + 1, cs =>
    match decStr cs with
    | none => none
    | some (k, rest) =>
      match skipWs rest with
      | [] => none
      | c :: rest2 =>
        if c = ':' then
          match decStr rest2 with
          | none => none
          | some (v, rest3) =>
            match skipWs rest3 with
            | [] => none
            | d :: rest4 =>
              if d = ',' then (decObjPairsGo fuel rest4).map (fun p => ((k, v) :: p.1, p.2))
              else if d = '}' then some ([(k, v)], rest4)
              else none
        else none

/-- Parse one stored value: an array of strings, or an object that holds
exactly the fields `english` and `native` (the only object shape this data
file ever holds). -/
def decVal (cs : List Char) : Option (PyVal × List Char) :=
  match skipWs cs with
  | [] => none
  | c :: rest =>
    if c = '[' then
      match skipWs rest with
      | [] => none
      | d :: rest2 =>
        if d = ']' then some (.vlst [], rest2)
        else (decArrItemsGo (rest.length + 1) rest).map (fun p => (PyVal.vlst p.1, p.2))
    else if c = '{' then
      match decObjPairsGo (rest.length + 1) rest with
      | none => none
      | some (pairs, rest2) =>
        match canonList pairs with
        | [(k1, e), (k2, n)] =>
          if k1 = "english" ∧ k2 = "native" then some (.vobj e n, rest2) else none
        | _ => none
    else none

/-- Entries of a non-empty top-level object, consuming the closing `}`. -/
def decEntriesGo : Nat → List Char → Option (List (String × PyVal) × List Char)
  | 0, _ => none
  | fuel + 1, cs =>
    match decStr cs with
    | none => none
    | some (k, rest) =>
      match skipWs rest with
      | [] => none
      | c :: rest2 =>
        if c = ':' then
          match decVal rest2 with
          | none => none
          | some (v, rest3) =>
            match skipWs rest3 with
            | [] => none
            | d :: rest4 =>
              if d = ',' then (decEntriesGo fuel rest4).map (fun p => ((k, v) :: p.1, p.2))
              else if d = '}' then some ([(k, v)], rest4)
              else none
        else none

/-- Parse a whole data file: one top-level object and trailing whitespace. -/
def parseTop (cs : List Char) : Option (List (String × PyVal)) :=
  match skipWs cs with
  | [] => none
  | c :: rest =>
    if c = '{' then
      match skipWs rest with
      | [] => none
      | d :: rest2 =>
        if d = '}' then (if skipWs rest2 = [] then some [] else none)
        else
          match decEntriesGo (rest.length + 1) rest with
          | none => none
          | some (pairs, rest2) => if skipWs rest2 = [] then some pairs else none
    else none

namespace Locale

/-- `Locale.loadLanguagesData(filename)`: `json.load` of the file content,
returned as the canonical dict (`json.load` builds a Python dict, whose
identity ignores entry order and keeps the last binding of any repeated
key — exactly what `canonList` produces). -/
def loadLanguagesData (s : String) : Option (List (String × PyVal)) :=
  (parseTop s.data).map canonList

end Locale

theorem hexVal_hexDigit : ∀ d : Nat, d < 16 → hexVal (hexDigit d) = some d := by decide

theorem readHex4_hex4 (n : Nat) (rest : List Char) :
    readHex4 (hex4 n ++ rest) =
      some (4096 * (n / 4096 % 16) + 256 * (n / 256 % 16) + 16 * (n / 16 % 16) + n % 16, rest) := by
  have e1 := hexVal_hexDigit (n / 4096 % 16) (Nat.mod_lt _ (by omega))
  have e2 := hexVal_hexDigit (n / 256 % 16) (Nat.mod_lt _ (by omega))
  have e3 := hexVal_hexDigit (n / 16 % 16) (Nat.mod_lt _ (by omega))
  have e4 := hexVal_hexDigit (n % 16) (Nat.mod_lt _ (by omega))
  simp only [hex4, List.cons_append, List.nil_append, readHex4, e1, e2, e3, e4]

theorem readHex4_hex4_of_lt {n : Nat} (h : n < 65536) (rest : List Char) :
    readHex4 (hex4 n ++ rest) = some (n, rest) := by
  rw [readHex4_hex4]
  have e : 4096 * (n / 4096 % 16) + 256 * (n / 256 % 16) + 16 * (n / 16 % 16) + n % 16 = n := by
    omega
  rw [e]

theorem decStrBody_uEsc (fuel : Nat) (tail : List Char) :
    decStrBody (fuel + 1) ('\\' :: 'u' :: tail) =
      (match readHex4 tail with
       | none => none
       | some (n, rest3) =>
         if n < 55296 ∨ 57344 ≤ n then
           (decStrBody fuel rest3).map (fun p => (Char.ofNat n :: p.1, p.2))
         else if n < 56320 then
           match rest3 with
           | s1 :: s2 :: rest4 =>
             if s1 = '\\' ∧ s2 = 'u' then
               match readHex4 rest4 with
               | none => none
               | some (mlow, rest5) =>
                 if 56320 ≤ mlow ∧ mlow < 57344 then
                   (decStrBody fuel rest5).map
                     (fun p => (Char.ofNat (65536 + 1024 * (n - 55296) + (mlow - 56320)) :: p.1, p.2))
                 else none
             else none
           | _ => none
         else none) := rfl

theorem char_valid_toNat (c : Char) :
    c.toNat < 55296 ∨ (57343 < c.toNat ∧ c.toNat < 1114112) := by
  have h := c.valid
  unfold UInt32.isValidChar Nat.isValidChar at h
  exact h

theorem decStrBody_escapeChar (c : Char) (rest : List Char) (fuel : Nat) :
    decStrBody (fuel + 1) (escapeChar c ++ rest) =
      (decStrBody fuel rest).map (fun p => (c :: p.1, p.2)) := by
  by_cases h1 : c = '"'
  · subst h1; rfl
  · by_cases h2 : c = '\\'
    · subst h2; rfl
    · by_cases h3 : c.toNat = 8
      · have hc : c = Char.ofNat 8 := charToNat_inj (by rw [h3]; decide)
        subst hc; rfl
      · by_cases h4 : c.toNat = 9
        · have hc : c = Char.ofNat 9 := charToNat_inj (by rw [h4]; decide)
          subst hc; rfl
        · by_cases h5 : c.toNat = 10
          · have hc : c = Char.ofNat 10 := charToNat_inj (by rw [h5]; decide)
            subst hc; rfl
          · by_cases h6 : c.toNat = 12
            · have hc : c = Char.ofNat 12 := charToNat_inj (by rw [h6]; decide)
              subst hc; rfl
            · by_cases h7 : c.toNat = 13
              · have hc : c = Char.ofNat 13 := charToNat_inj (by rw [h7]; decide)
                subst hc; rfl
              · by_cases h8 : 32 ≤ c.toNat ∧ c.toNat ≤ 126
                · have hesc : escapeChar c = [c] := by
                    unfold escapeChar
                    rw [if_neg h1, if_neg h2, if_neg h3, if_neg h4, if_neg h5, if_neg h6,
                      if_neg h7, if_pos h8]
                  rw [hesc, List.singleton_append]
                  cases rest with
                  | nil => rw [decStrBody.eq_3, if_neg h1, if_neg h2, if_pos h8.1]
                  | cons e rest2 => rw [decStrBody.eq_4, if_neg h1, if_neg h2, if_pos h8.1]
                · by_cases h9 : c.toNat < 65536
                  · have hesc : escapeChar c = '\\' :: 'u' :: hex4 c.toNat := by
                      unfold escapeChar
                      rw [if_neg h1, if_neg h2, if_neg h3, if_neg h4, if_neg h5, if_neg h6,
                        if_neg h7, if_neg h8, if_pos h9]
                    rw [hesc, List.cons_append, List.cons_append, decStrBody_uEsc,
                      readHex4_hex4_of_lt h9]
                    have hval : c.toNat < 55296 ∨ 57344 ≤ c.toNat := by
                      rcases char_valid_toNat c with h | ⟨h, _⟩
                      · exact Or.inl h
                      · exact Or.inr (by omega)
                    simp only [hval, if_true, Char.ofNat_toNat]
                  · have hval := char_valid_toNat c
                    have hge : 65536 ≤ c.toNat := by omega
                    have hlt : c.toNat < 1114112 := by omega
                    have hesc : escapeChar c =
                        ('\\' :: 'u' :: hex4 (55296 + (c.toNat - 65536) / 1024)) ++
                        ('\\' :: 'u' :: hex4 (56320 + (c.toNat - 65536) % 1024)) := by
                      unfold escapeChar
                      rw [if_neg h1, if_neg h2, if_neg h3, if_neg h4, if_neg h5, if_neg h6,
                        if_neg h7, if_neg h8, if_neg h9]
                    have hhi : 55296 + (c.toNat - 65536) / 1024 < 65536 := by omega
                    have hlo : 56320 + (c.toNat - 65536) % 1024 < 65536 := by
                      have := @Nat.mod_lt (c.toNat - 65536) 1024 (by omega)
                      omega
                    rw [hesc]
                    simp only [List.cons_append, List.append_assoc]
                    rw [decStrBody_uEsc, readHex4_hex4_of_lt hhi]
                    have hno : ¬ (55296 + (c.toNat - 65536) / 1024 < 55296 ∨
                        57344 ≤ 55296 + (c.toNat - 65536) / 1024) := by
                      have := @Nat.div_le_div_right _ _ 1024 (Nat.le_of_lt_succ (Nat.lt_succ_of_lt hlt))
                      omega
                    have hyes : 55296 + (c.toNat - 65536) / 1024 < 56320 := by omega
                    simp only [List.cons_append, hno, if_false, hyes, if_true, reduceIte,
                      readHex4_hex4_of_lt hlo]
                    have hrange : 56320 ≤ 56320 + (c.toNat - 65536) % 1024 ∧
                        56320 + (c.toNat - 65536) % 1024 < 57344 := by
                      have := @Nat.mod_lt (c.toNat - 65536) 1024 (by omega)
                      omega
                    simp only [hrange, if_true, and_self, reduceIte]
                    have hback : 65536 + 1024 * (55296 + (c.toNat - 65536) / 1024 - 55296) +
                        (56320 + (c.toNat - 65536) % 1024 - 56320) = c.toNat := by
                      omega
                    rw [hback, Char.ofNat_toNat]


theorem skipWs_cons {c : Char} (h : isWs c = false) (l : List Char) :
    skipWs (c :: l) = c :: l := by
  rw [skipWs, if_neg (by simp [h])]

theorem escapeChar_length_pos (c : Char) : 1 ≤ (escapeChar c).length := by
  unfold escapeChar
  split_ifs <;> simp [hex4]

theorem escapeChars_length (l : List Char) : l.length ≤ (escapeChars l).length := by
  induction l with
  | nil => simp [escapeChars]
  | cons c cs ih =>
    simp only [escapeChars, List.length_append, List.length_cons]
    have := escapeChar_length_pos c
    omega

theorem decStrBody_escapeChars : ∀ (l : List Char) (rest : List Char) (fuel : Nat),
    l.length + 1 ≤ fuel →
    decStrBody fuel (escapeChars l ++ '"' :: rest) = some (l, rest)
  | [], rest, fuel, h => by
    cases fuel with
    | zero => omega
    | succ f => rfl
  | c :: cs, rest, fuel, h => by
    cases fuel with
    | zero => omega
    | succ f =>
      have e : escapeChars (c :: cs) ++ '"' :: rest =
          escapeChar c ++ (escapeChars cs ++ '"' :: rest) := by
        simp [escapeChars, List.append_assoc]
      have hf : cs.length + 1 ≤ f := by simp at h; omega
      rw [e, decStrBody_escapeChar, decStrBody_escapeChars cs rest f hf]
      rfl

theorem decStr_encStr (s : String) (rest : List Char) :
    decStr (encStr s ++ rest) = some (s, rest) := by
  have e : encStr s ++ rest = '"' :: (escapeChars s.data ++ '"' :: rest) := by
    simp [encStr]
  rw [decStr, e, skipWs_cons (by decide)]
  have hlen : s.data.length + 1 ≤ (escapeChars s.data ++ '"' :: rest).length + 1 := by
    simp only [List.length_append, List.length_cons]
    have := escapeChars_length s.data
    omega
  simp only [decStrBody_escapeChars s.data rest _ hlen]
  rfl



theorem skipWs_cons_ws {c : Char} (h : isWs c = true) (l : List Char) :
    skipWs (c :: l) = skipWs l := by
  rw [skipWs, if_pos (by simp [h])]

theorem decStr_ws {c : Char} (h : isWs c = true) (cs : List Char) :
    decStr (c :: cs) = decStr cs := by
  unfold decStr
  rw [skipWs_cons_ws h]

theorem decVal_ws {c : Char} (h : isWs c = true) (cs : List Char) :
    decVal (c :: cs) = decVal cs := by
  unfold decVal
  rw [skipWs_cons_ws h]

theorem encStr_cons (s : String) : ∃ t, encStr s = '"' :: t := ⟨_, rfl⟩

theorem encArrItems_length : ∀ items : List String, items.length ≤ (encArrItems items).length
  | [] => by simp [encArrItems]
  | [s] => by simp [encArrItems, encStr]
  | s :: s2 :: rest => by
    have ih := encArrItems_length (s2 :: rest)
    simp only [encArrItems, List.length_append, List.length_cons, List.length]
    simp only [List.length_cons] at ih
    simp [encStr]
    omega

theorem decArrItemsGo_enc : ∀ (items : List String) (rest : List Char) (fuel : Nat),
    items ≠ [] → items.length ≤ fuel →
    decArrItemsGo fuel ('\n' :: (encArrItems items ++ '\n' :: ']' :: rest)) = some (items, rest)
  | [], _, _, hne, _ => absurd rfl hne
  | [s], rest, fuel, _, hlen => by
    cases fuel with
    | zero => simp at hlen
    | succ f =>
      rw [decArrItemsGo]
      have e1 : encArrItems [s] = encStr s := rfl
      rw [e1, decStr_ws (by decide), decStr_encStr]
      simp only [skipWs_cons_ws (show isWs '\n' = true by decide),
        skipWs_cons (show isWs ']' = false by decide)]
      simp only [Char.reduceEq, reduceIte]
  | s :: s2 :: rest2, rest, fuel, _, hlen => by
    cases fuel with
    | zero => simp at hlen
    | succ f =>
      rw [decArrItemsGo]
      have e1 : encArrItems (s :: s2 :: rest2) ++ '\n' :: ']' :: rest =
          encStr s ++ ',' :: '\n' :: (encArrItems (s2 :: rest2) ++ '\n' :: ']' :: rest) := by
        simp [encArrItems, List.append_assoc]
      rw [e1, decStr_ws (by decide), decStr_encStr]
      simp only [skipWs_cons (show isWs ',' = false by decide)]
      simp only [Char.reduceEq, reduceIte]
      rw [decArrItemsGo_enc (s2 :: rest2) rest f (by simp) (by simp at hlen ⊢; omega)]
      rfl

theorem decVal_encList (items : List String) (rest : List Char) (hne : items ≠ []) :
    decVal (encList items ++ rest) = some (PyVal.vlst items, rest) := by
  match items, hne with
  | s :: ss, _ =>
    have e1 : encList (s :: ss) ++ rest =
        '[' :: '\n' :: (encArrItems (s :: ss) ++ '\n' :: ']' :: rest) := by
      simp [encList, List.append_assoc]
    rw [decVal, e1, skipWs_cons (by decide)]
    obtain ⟨t, ht⟩ : ∃ t, encArrItems (s :: ss) = '"' :: t := by
      cases ss with
      | nil => exact ⟨_, rfl⟩
      | cons s2 ss2 => exact ⟨_, rfl⟩
    have hskip : skipWs ('\n' :: (encArrItems (s :: ss) ++ '\n' :: ']' :: rest)) =
        '"' :: (t ++ '\n' :: ']' :: rest) := by
      rw [skipWs_cons_ws (show isWs '\n' = true by decide), ht, List.cons_append,
        skipWs_cons (show isWs '"' = false by decide)]
    simp only [Char.reduceEq, reduceIte]
    rw [hskip]
    simp only [Char.reduceEq, reduceIte]
    rw [decArrItemsGo_enc (s :: ss) rest _ (by simp) ?_]
    · rfl
    · simp only [List.length_cons, List.length_append]
      have := encArrItems_length (s :: ss)
      simp only [List.length_cons] at this ⊢
      omega



theorem decVal_encObj (e n : String) (rest : List Char) :
    decVal (encObj e n ++ rest) = some (PyVal.vobj e n, rest) := by
  have e1 : encObj e n ++ rest =
      '{' :: '\n' :: (encStr "english" ++ ':' :: ' ' :: (encStr e ++ ',' :: '\n' ::
        (encStr "native" ++ ':' :: ' ' :: (encStr n ++ '\n' :: '}' :: rest)))) := by
    simp [encObj, List.append_assoc]
  have hpairs : ∀ f : Nat, decObjPairsGo (f + 1 + 1)
      ('\n' :: (encStr "english" ++ ':' :: ' ' :: (encStr e ++ ',' :: '\n' ::
        (encStr "native" ++ ':' :: ' ' :: (encStr n ++ '\n' :: '}' :: rest))))) =
      some ([("english", e), ("native", n)], rest) := by
    intro f
    rw [decObjPairsGo, decStr_ws (by decide), decStr_encStr]
    simp only [skipWs_cons (show isWs ':' = false by decide)]
    simp only [Char.reduceEq, reduceIte]
    rw [decStr_ws (by decide), decStr_encStr]
    simp only [skipWs_cons (show isWs ',' = false by decide)]
    simp only [Char.reduceEq, reduceIte]
    rw [decObjPairsGo, decStr_ws (by decide), decStr_encStr]
    simp only [skipWs_cons (show isWs ':' = false by decide)]
    simp only [Char.reduceEq, reduceIte]
    rw [decStr_ws (by decide), decStr_encStr]
    simp only [skipWs_cons_ws (show isWs '\n' = true by decide),
      skipWs_cons (show isWs '}' = false by decide)]
    simp only [Char.reduceEq, reduceIte]
    rfl
  rw [decVal, e1, skipWs_cons (by decide)]
  simp only [Char.reduceEq, reduceIte, List.length_cons]
  rw [hpairs]
  have hc : canonList [("english", e), ("native", n)] = [("english", e), ("native", n)] := rfl
  simp only [hc]
  simp only [String.reduceEq, reduceIte, and_self]



theorem decVal_encVal (v : PyVal) (rest : List Char) :
    decVal (encVal v ++ rest) = some (coerceVal v, rest) := by
  cases v with
  | vtup e n => exact decVal_encList [e, n] rest (by simp)
  | vlst items =>
    cases items with
    | nil => rfl
    | cons s ss => exact decVal_encList (s :: ss) rest (by simp)
  | vobj e n => exact decVal_encObj e n rest

theorem encEntries_length : ∀ m : List (String × PyVal), m.length ≤ (encEntries m).length
  | [] => by simp [encEntries]
  | [(k, v)] => by simp [encEntries, encEntry, encStr]
  | (k, v) :: q :: rest => by
    have ih := encEntries_length (q :: rest)
    simp only [encEntries, List.length_append, List.length_cons] at ih ⊢
    simp [encEntry, encStr]
    omega

theorem decEntriesGo_enc : ∀ (m : List (String × PyVal)) (rest : List Char) (fuel : Nat),
    m ≠ [] → m.length ≤ fuel →
    decEntriesGo fuel ('\n' :: (encEntries m ++ '\n' :: '}' :: rest)) = some (coerceMap m, rest)
  | [], _, _, hne, _ => absurd rfl hne
  | [(k, v)], rest, fuel, _, hlen => by
    cases fuel with
    | zero => simp at hlen
    | succ f =>
      rw [decEntriesGo]
      have e1 : encEntries [(k, v)] ++ '\n' :: '}' :: rest =
          encStr k ++ ':' :: ' ' :: (encVal v ++ '\n' :: '}' :: rest) := by
        simp [encEntries, encEntry, List.append_assoc]
      rw [e1, decStr_ws (by decide), decStr_encStr]
      simp only [skipWs_cons (show isWs ':' = false by decide)]
      simp only [Char.reduceEq, reduceIte]
      rw [decVal_ws (by decide), decVal_encVal]
      simp only [skipWs_cons_ws (show isWs '\n' = true by decide),
        skipWs_cons (show isWs '}' = false by decide)]
      simp only [Char.reduceEq, reduceIte]
      rfl
  | (k, v) :: q :: m2, rest, fuel, _, hlen => by
    cases fuel with
    | zero => simp at hlen
    | succ f =>
      rw [decEntriesGo]
      have e1 : encEntries ((k, v) :: q :: m2) ++ '\n' :: '}' :: rest =
          encStr k ++ ':' :: ' ' :: (encVal v ++ ',' :: '\n' ::
            (encEntries (q :: m2) ++ '\n' :: '}' :: rest)) := by
        simp [encEntries, encEntry, List.append_assoc]
      rw [e1, decStr_ws (by decide), decStr_encStr]
      simp only [skipWs_cons (show isWs ':' = false by decide)]
      simp only [Char.reduceEq, reduceIte]
      rw [decVal_ws (by decide), decVal_encVal]
      simp only [skipWs_cons (show isWs ',' = false by decide)]
      simp only [Char.reduceEq, reduceIte]
      rw [decEntriesGo_enc (q :: m2) rest f (by simp) (by simp at hlen ⊢; omega)]
      rfl

theorem parseTop_encTop : ∀ m : List (String × PyVal),
    parseTop (encTop m ++ ['\n']) = some (coerceMap m)
  | [] => rfl
  | p :: m2 => by
    obtain ⟨k, v⟩ := p
    have e1 : encTop ((k, v) :: m2) ++ ['\n'] =
        '{' :: '\n' :: (encEntries ((k, v) :: m2) ++ '\n' :: '}' :: ['\n']) := by
      simp [encTop, List.append_assoc]
    rw [parseTop, e1, skipWs_cons (by decide)]
    simp only [Char.reduceEq, reduceIte]
    obtain ⟨t, ht⟩ : ∃ t, encEntries ((k, v) :: m2) = '"' :: t := by
      cases m2 with
      | nil => exact ⟨_, rfl⟩
      | cons q m3 => exact ⟨_, rfl⟩
    have hskip : skipWs ('\n' :: (encEntries ((k, v) :: m2) ++ '\n' :: '}' :: ['\n'])) =
        '"' :: (t ++ '\n' :: '}' :: ['\n']) := by
      rw [skipWs_cons_ws (show isWs '\n' = true by decide), ht, List.cons_append,
        skipWs_cons (show isWs '"' = false by decide)]
    rw [hskip]
    simp only [Char.reduceEq, reduceIte]
    rw [decEntriesGo_enc ((k, v) :: m2) ['\n'] _ (by simp) ?_]
    · have hw : skipWs ['\n'] = [] := rfl
      simp [hw]
    · simp only [List.length_cons, List.length_append]
      have := encEntries_length ((k, v) :: m2)
      simp only [List.length_cons] at this ⊢
      omega

theorem load_save (d : List (String × PyVal)) :
    Locale.loadLanguagesData (Locale.saveLanguagesData d) =
      some (canonList (coerceMap (canonList d))) := by
  unfold Locale.loadLanguagesData Locale.saveLanguagesData
  rw [show (⟨encTop (canonList d) ++ ['\n']⟩ : String).data =
    encTop (canonList d) ++ ['\n'] from rfl]
  rw [parseTop_encTop]
  rfl

theorem encVal_coerce (v : PyVal) : encVal (coerceVal v) = encVal v := by
  cases v <;> rfl

theorem encEntries_coerce : ∀ m : List (String × PyVal),
    encEntries (coerceMap m) = encEntries m
  | [] => rfl
  | [(k, v)] => by
    show encEntries [(k, coerceVal v)] = encEntries [(k, v)]
    simp only [encEntries, encEntry, encVal_coerce]
  | (k, v) :: q :: m2 => by
    obtain ⟨k2, v2⟩ := q
    show encEntries ((k, coerceVal v) :: (k2, coerceVal v2) :: coerceMap m2) =
      encEntries ((k, v) :: (k2, v2) :: m2)
    simp only [encEntries, encEntry, encVal_coerce]
    have ih := encEntries_coerce ((k2, v2) :: m2)
    show encStr k ++ ':' :: ' ' :: encVal v ++
        ',' :: '\n' :: encEntries (coerceMap ((k2, v2) :: m2)) = _
    rw [ih]

theorem encTop_coerce (m : List (String × PyVal)) : encTop (coerceMap m) = encTop m := by
  cases m with
  | nil => rfl
  | cons p m2 =>
    obtain ⟨k, v⟩ := p
    show encTop ((k, coerceVal v) :: coerceMap m2) = _
    show '{' :: '\n' :: (encEntries ((k, coerceVal v) :: coerceMap m2) ++ '\n' :: ['}']) = _
    rw [show (k, coerceVal v) :: coerceMap m2 = coerceMap ((k, v) :: m2) from rfl,
      encEntries_coerce]
    rfl

theorem save_coerce (d : List (String × PyVal)) :
    Locale.saveLanguagesData (coerceMap d) = Locale.saveLanguagesData d := by
  unfold Locale.saveLanguagesData
  rw [show canonList (coerceMap d) = coerceMap (canonList d) from
    (coerceMap_canonList d).symm, encTop_coerce]

/-! The merge-and-persist driver, `main()` plus the `__main__` guard.

The run's interaction with the outside world is an explicit environment:
which registry modules import, the current content of `data/languages.dat`
(`none` models an absent file, whose `open` raises `IOError`), the PO
catalogs in the data directory, and how the final write goes.  The write
is `open(filename, 'w')` — which truncates on a successful open — followed
by `json.dump`; so it can fail at `open` (file untouched) or during the
write itself (file left truncated at however many chars made it out).

Exit status: `sys.exit(main(sys.argv[1:]))` — `main` always returns
`None`, so a completed `main` exits with status 0, whether or not the
save succeeded (the `except IOError` branch only writes to stderr and
falls off the end of `main`).  An exception escaping `main` (`KeyError`
from a malformed catalog, `ValueError` from malformed JSON) is caught by
the `__main__` guard, which does `print e` (stdout) and `sys.exit(1)`. -/

inductive WriteOutcome where
  | ok
  | openFail (reason : String)
  | midFail (written : Nat) (reason : String)
  deriving DecidableEq, Repr

structure Env where
  icu : RawSource
  babel : RawSource
  dataFile : Option String
  pofiles : List PoCatalog

structure RunResult where
  exitCode : Nat
  stdoutLines : List String
  stderrLines : List String
  dataFile : Option String
  merged : Option (List (String × PyVal))
  deriving DecidableEq, Repr

/-- `env` with its babel registry adapter replaced. -/
def withBabel (env : Env) (b : RawSource) : Env :=
  ⟨env.icu, b, env.dataFile, env.pofiles⟩

/-- The registry loop of `main`: `for source in sources[:-1]: try: languages
= Locale.getLanguages(source=source); break; except ImportError: continue` —
the first available registry source seeds the working set; if none is
available the seed stays `{}`. -/
def seedOf (env : Env) : List (String × PyVal) :=
  if env.icu.available then Locale.getLanguages env.icu []
  else if env.babel.available then Locale.getLanguages env.babel []
  else []

/-- `Locale.loadLanguagesData(datafile)` inside `try … except IOError:
pass`: a missing file reads as the empty prior set; a present file is
parsed by `json.load`, whose `ValueError` on malformed content is *not*
caught by `main` (it reaches the `__main__` guard). -/
def loadPhase : Option String → Except String (List (String × PyVal))
  | none => .ok []
  | some s =>
    match Locale.loadLanguagesData s with
    | some m => .ok m
    | none => .error "ValueError: No JSON object could be decoded"

/-- The stderr diagnostic of the `except IOError as reason` branch. -/
def saveErrMsg (reason : String) : String :=
  "Could not save languages data file: " ++ reason

/-- The success summary printed to stdout (the path is
`osp.relpath(datafile)` as resolved in the game checkout). -/
def saveSummary (n : Nat) : String :=
  toString n ++ " languages saved to data/languages.dat"

/-- The first `n` chars of `s`: what a write that dies after `n` chars
leaves in the (truncated-on-open) output file. -/
def strTake (s : String) (n : Nat) : String := ⟨s.data.take n⟩

/-- One whole run: `sys.exit(main(sys.argv[1:]))` under the `__main__`
guard, given the outside world `env` and write outcome `w`. -/
def main (env : Env) (w : WriteOutcome) : RunResult :=
  let seed := seedOf env
  match loadPhase env.dataFile with
  | .error msg => ⟨1, [msg], [], env.dataFile, none⟩
  | .ok prior =>
    match Locale.getLanguagesPo env.pofiles with
    | .error msg => ⟨1, [msg], [], env.dataFile, none⟩
    | .ok po =>
      let merged := pyUpdate (pyUpdate seed prior) po
      let out := Locale.saveLanguagesData merged
      match w with
      | .ok => ⟨0, [saveSummary merged.length], [], some out, some merged⟩
      | .openFail r => ⟨0, [], [saveErrMsg r], env.dataFile, some merged⟩
      | .midFail n r => ⟨0, [], [saveErrMsg r], some (strTake out n), some merged⟩

theorem loadPhase_sorted {df : Option String} {prior : List (String × PyVal)}
    (h : loadPhase df = .ok prior) : sortedB prior = true := by
  cases df with
  | none =>
    injection h with h
    rw [← h]
    rfl
  | some s =>
    simp only [loadPhase] at h
    cases hl : Locale.loadLanguagesData s with
    | none => rw [hl] at h; exact absurd h (by simp)
    | some m =>
      rw [hl] at h
      injection h with h
      unfold Locale.loadLanguagesData at hl
      cases hp : parseTop s.data with
      | none => rw [hp] at hl; simp at hl
      | some pairs =>
        rw [hp] at hl
        simp only [Option.map] at hl
        injection hl with hl
        rw [← h, ← hl]
        exact canonList_sorted pairs

theorem seedOf_sorted (env : Env) : sortedB (seedOf env) = true := by
  unfold seedOf
  split_ifs
  · exact getLanguages_sorted _ _
  · exact getLanguages_sorted _ _
  · rfl

theorem seedOf_good (env : Env) :
    ∀ k v, lookV k (seedOf env) = some v → goodVal v := by
  unfold seedOf
  split_ifs
  · exact getLanguages_good _ _
  · exact getLanguages_good _ _
  · intro k v h; simp [lookV] at h

theorem main_cases (env : Env) (w : WriteOutcome) (prior po : List (String × PyVal))
    (hload : loadPhase env.dataFile = .ok prior)
    (hpo : Locale.getLanguagesPo env.pofiles = .ok po) :
    main env w =
      (match w with
       | .ok => ⟨0, [saveSummary (pyUpdate (pyUpdate (seedOf env) prior) po).length], [],
           some (Locale.saveLanguagesData (pyUpdate (pyUpdate (seedOf env) prior) po)),
           some (pyUpdate (pyUpdate (seedOf env) prior) po)⟩
       | .openFail r => ⟨0, [], [saveErrMsg r], env.dataFile,
           some (pyUpdate (pyUpdate (seedOf env) prior) po)⟩
       | .midFail n r => ⟨0, [], [saveErrMsg r],
           some (strTake (Locale.saveLanguagesData (pyUpdate (pyUpdate (seedOf env) prior) po)) n),
           some (pyUpdate (pyUpdate (seedOf env) prior) po)⟩ : RunResult) := by
  simp only [main, hload, hpo]

theorem main_fatal_load (env : Env) (w : WriteOutcome) {msg : String}
    (hload : loadPhase env.dataFile = .error msg) :
    main env w = ⟨1, [msg], [], env.dataFile, none⟩ := by
  simp only [main, hload]

theorem main_fatal_po (env : Env) (w : WriteOutcome) {prior : List (String × PyVal)}
    {msg : String} (hload : loadPhase env.dataFile = .ok prior)
    (hpo : Locale.getLanguagesPo env.pofiles = .error msg) :
    main env w = ⟨1, [msg], [], env.dataFile, none⟩ := by
  simp only [main, hload, hpo]

/-! The claims. -/

def noSrc : RawSource := ⟨false, [], fun _ => "", fun _ => ""⟩

theorem main_merged (env : Env) (w : WriteOutcome) (prior po m : List (String × PyVal))
    (hload : loadPhase env.dataFile = .ok prior)
    (hpo : Locale.getLanguagesPo env.pofiles = .ok po)
    (hm : (main env w).merged = some m) :
    m = pyUpdate (pyUpdate (seedOf env) prior) po := by
  rw [main_cases env w prior po hload hpo] at hm
  cases w <;> exact (Option.some_inj.mp hm).symm

def envC1 : Env := ⟨noSrc, noSrc, none, []⟩

/-- Claim C1, counterexample: on a write failure the error and its reason do
reach stderr, but the process exit code is 0, not non-zero — `main` catches
the `IOError`, returns `None`, and `sys.exit(None)` exits with status 0. -/
theorem C1_counterexample :
    (main envC1 (.openFail "Permission denied")).stderrLines =
      [saveErrMsg "Permission denied"] ∧
    (main envC1 (.openFail "Permission denied")).exitCode = 0 := by
  constructor <;> decide

/-- Claim C1 (amended): if the run cannot write the output data file, the
error and its underlying reason are reported to the operator on stderr; the
process exits with code zero whether the write fails or succeeds. -/
theorem C1_write_failure_stderr_exit_zero (env : Env)
    (prior po : List (String × PyVal)) (r : String)
    (hload : loadPhase env.dataFile = .ok prior)
    (hpo : Locale.getLanguagesPo env.pofiles = .ok po) :
    (main env (.openFail r)).stderrLines = [saveErrMsg r] ∧
    (main env (.openFail r)).exitCode = 0 ∧
    (main env .ok).exitCode = 0 ∧
    (main env .ok).stderrLines = [] := by
  rw [main_cases env (.openFail r) prior po hload hpo,
    main_cases env .ok prior po hload hpo]
  exact ⟨rfl, rfl, rfl, rfl⟩

/-- Claim C1, witness for the amended theorem at a concrete environment. -/
theorem C1_witness :
    (main envC1 (.openFail "Permission denied")).stderrLines =
      [saveErrMsg "Permission denied"] ∧
    (main envC1 (.openFail "Permission denied")).exitCode = 0 ∧
    (main envC1 .ok).exitCode = 0 ∧
    (main envC1 .ok).stderrLines = [] :=
  C1_write_failure_stderr_exit_zero envC1 [] [] "Permission denied" rfl rfl



/-- Claim C2: the driver's merge is overwrite-by-key with precedence
translation files > persisted file > first-available registry seed: every
key the translation-file source defines takes its value from it, keys not
redefined later keep the persisted file's value, and keys defined by
neither keep the registry seed's value. -/
theorem C2_translation_files_override (env : Env) (w : WriteOutcome)
    (prior po m : List (String × PyVal))
    (hload : loadPhase env.dataFile = .ok prior)
    (hpo : Locale.getLanguagesPo env.pofiles = .ok po)
    (hm : (main env w).merged = some m) :
    ∀ k : String,
      ((∃ v, lookV k po = some v) → lookV k m = lookV k po) ∧
      (lookV k po = none → (∃ v, lookV k prior = some v) → lookV k m = lookV k prior) ∧
      (lookV k po = none → lookV k prior = none → lookV k m = lookV k (seedOf env)) := by
  have hM := main_merged env w prior po m hload hpo hm
  subst hM
  intro k
  have hpos : sortedB po = true := getLanguagesPo_sorted hpo
  have hprs : sortedB prior = true := loadPhase_sorted hload
  rw [lookV_pyUpdate k po _ hpos, lookV_pyUpdate k prior _ hprs]
  refine ⟨?_, ?_, ?_⟩
  · rintro ⟨v, hv⟩
    rw [hv]
  · rintro h0 ⟨v, hv⟩
    rw [h0, hv]
  · intro h0 h1
    rw [h0, h1]

def icuC2 : RawSource :=
  ⟨true, ["aa", "bb", "cc"],
    fun c => if c = "aa" then "Ay" else if c = "bb" then "Bee" else "Cee",
    fun _ => ""⟩

def priorC2 : List (String × PyVal) :=
  [("bb", PyVal.vlst ["B", "B"]), ("cc", PyVal.vlst ["C", "C"])]

def envC2 : Env :=
  ⟨icuC2, noSrc, some (Locale.saveLanguagesData priorC2),
    [⟨"cc", [("Language-Name", "Ci"), ("Language-Native-Name", "Ci")]⟩]⟩

def poC2 : List (String × PyVal) := [("cc", PyVal.vtup "Ci" "Ci")]

def mC2 : List (String × PyVal) :=
  [("aa", PyVal.vtup "Ay" ""), ("bb", PyVal.vlst ["B", "B"]), ("cc", PyVal.vtup "Ci" "Ci")]

/-- Claim C2, witness at a concrete run exercising all three precedence
levels. -/
theorem C2_witness :
    lookV "cc" mC2 = lookV "cc" poC2 ∧
    lookV "bb" mC2 = lookV "bb" priorC2 ∧
    lookV "aa" mC2 = lookV "aa" (seedOf envC2) := by
  have h := C2_translation_files_override envC2 .ok priorC2 poC2 mC2
    (by rfl) (by rfl) (by decide)
  exact ⟨(h "cc").1 ⟨PyVal.vtup "Ci" "Ci", by decide⟩,
    (h "bb").2.1 (by decide) ⟨PyVal.vlst ["B", "B"], by decide⟩,
    (h "aa").2.2 (by decide) (by decide)⟩



/-- Claim C3, counterexample: a merged mapping holding a Python tuple (the
shape `Locale.getLanguages` produces and `main` saves) does not round-trip
to itself — `json` turns the tuple into a list, and in Python
`("English", "english") == ["English", "english"]` is false. -/
theorem C3_counterexample :
    Locale.loadLanguagesData (Locale.saveLanguagesData
        [("en", PyVal.vtup "English" "english")]) =
      some [("en", PyVal.vlst ["English", "english"])] ∧
    (some [("en", PyVal.vlst ["English", "english"])] : Option (List (String × PyVal))) ≠
      some [("en", PyVal.vtup "English" "english")] := by
  constructor <;> decide

/-- Claim C3 (amended): loading after saving returns the same mapping up to
the `json` tuple-to-list coercion — exactly the same mapping whenever the
values are already in JSON shape (lists/objects) — and re-saving the
coerced (loaded) data yields byte-identical file output, keys sorted. -/
theorem C3_round_trip (d : List (String × PyVal)) (hs : sortedB d = true) :
    Locale.loadLanguagesData (Locale.saveLanguagesData d) = some (coerceMap d) ∧
    Locale.saveLanguagesData (coerceMap d) = Locale.saveLanguagesData d ∧
    (coerceMap d = d → Locale.loadLanguagesData (Locale.saveLanguagesData d) = some d) := by
  have h1 : Locale.loadLanguagesData (Locale.saveLanguagesData d) = some (coerceMap d) := by
    rw [load_save d, canonList_id_of_sorted hs]
    rw [show canonList (coerceMap d) = coerceMap d from
      canonList_id_of_sorted (by rw [sortedB_coerceMap]; exact hs)]
  exact ⟨h1, save_coerce d, fun hc => by rw [h1, hc]⟩

def dC3 : List (String × PyVal) :=
  [("en", PyVal.vlst ["English", "English"]), ("fr", PyVal.vobj "French" "Français")]

/-- Claim C3, witness on a concrete JSON-shaped mapping (with a non-ASCII
native name, exercising the `\uXXXX` escape path). -/
theorem C3_witness :
    Locale.loadLanguagesData (Locale.saveLanguagesData dC3) = some (coerceMap dC3) ∧
    Locale.saveLanguagesData (coerceMap dC3) = Locale.saveLanguagesData dC3 ∧
    (coerceMap dC3 = dC3 → Locale.loadLanguagesData (Locale.saveLanguagesData dC3) = some dC3) :=
  C3_round_trip dC3 (by decide)

def envC4 : Env :=
  ⟨noSrc, noSrc, some (Locale.saveLanguagesData [("xx", PyVal.vlst ["Foo", "foo bar"])]), []⟩

/-- Claim C4, counterexample: an entry carried over from the persisted data
file is stored as-is, so the final saved mapping can hold a non-empty
native name ("foo bar") that is not title-cased. -/
theorem C4_counterexample :
    (main envC4 .ok).merged = some [("xx", PyVal.vlst ["Foo", "foo bar"])] ∧
    pyTitle "foo bar" ≠ "foo bar" := by
  constructor <;> decide

/-- Claim C4 (amended): every entry of the final merged mapping either is
exactly an entry of the persisted file (stored unchanged, not re-cased) or
came from a locale source, in which case its native name, when present, is
in title-cased form. -/
theorem C4_source_natives_titled_persisted_kept (env : Env) (w : WriteOutcome)
    (prior po m : List (String × PyVal))
    (hload : loadPhase env.dataFile = .ok prior)
    (hpo : Locale.getLanguagesPo env.pofiles = .ok po)
    (hm : (main env w).merged = some m) :
    ∀ k v, lookV k m = some v →
      lookV k prior = some v ∨
      ∃ e n, v = PyVal.vtup e n ∧ (n ≠ "" → pyTitle n = n) := by
  have hM := main_merged env w prior po m hload hpo hm
  subst hM
  intro k v hv
  have hpos : sortedB po = true := getLanguagesPo_sorted hpo
  have hprs : sortedB prior = true := loadPhase_sorted hload
  rw [lookV_pyUpdate k po _ hpos] at hv
  cases hpo2 : lookV k po with
  | some u =>
    rw [hpo2] at hv
    obtain ⟨e, n, he, _, ht⟩ := getLanguagesPo_good hpo k u hpo2
    right
    exact ⟨e, n, by rw [← Option.some_inj.mp hv, he], ht⟩
  | none =>
    rw [hpo2] at hv
    rw [lookV_pyUpdate k prior _ hprs] at hv
    cases hpr2 : lookV k prior with
    | some u =>
      rw [hpr2] at hv
      left
      exact hv
    | none =>
      rw [hpr2] at hv
      obtain ⟨e, n, he, _, ht⟩ := seedOf_good env k v hv
      right
      exact ⟨e, n, he, ht⟩

def icuC4 : RawSource := ⟨true, ["qq"], fun _ => "Quux", fun _ => "quux lang"⟩

def envC4w : Env := ⟨icuC4, noSrc, none, []⟩

/-- Claim C4, witness: a registry native name "quux lang" is stored as its
title-cased form "Quux Lang". -/
theorem C4_witness :
    lookV "qq" [("qq", PyVal.vtup "Quux" "Quux Lang")] = some (PyVal.vtup "Quux" "Quux Lang") ∧
    (lookV "qq" ([] : List (String × PyVal)) = some (PyVal.vtup "Quux" "Quux Lang") ∨
      ∃ e n, PyVal.vtup "Quux" "Quux Lang" = PyVal.vtup e n ∧ (n ≠ "" → pyTitle n = n)) := by
  refine ⟨by decide, ?_⟩
  exact C4_source_natives_titled_persisted_kept envC4w .ok [] []
    [("qq", PyVal.vtup "Quux" "Quux Lang")] (by rfl) (by rfl) (by decide)
    "qq" (PyVal.vtup "Quux" "Quux Lang") (by decide)



def priorC5 : List (String × PyVal) := [("fr", PyVal.vlst ["French", "French"])]

def envC5 : Env := ⟨noSrc, noSrc, some (Locale.saveLanguagesData priorC5), []⟩

/-- Claim C5, counterexample: the output file is opened with mode `'w'`,
which truncates on a successful open, so a write that fails after the open
(here: after 0 chars) leaves the previously persisted file clobbered, not
untouched. -/
theorem C5_counterexample :
    (main envC5 (.midFail 0 "No space left on device")).dataFile = some "" ∧
    envC5.dataFile ≠ some "" ∧
    (main envC5 (.midFail 0 "No space left on device")).stderrLines =
      [saveErrMsg "No space left on device"] := by
  refine ⟨by decide, by decide, by decide⟩

/-- Claim C5 (amended): when the write failure is at `open` (e.g.
permissions), the prior data file is left untouched and the diagnostic goes
to stderr — but the exit code is 0 (see C1), and a failure after a
successful open leaves the file truncated to what was written. -/
theorem C5_open_failure_leaves_file (env : Env) (prior po : List (String × PyVal))
    (r : String) (n : Nat)
    (hload : loadPhase env.dataFile = .ok prior)
    (hpo : Locale.getLanguagesPo env.pofiles = .ok po) :
    ((main env (.openFail r)).dataFile = env.dataFile ∧
      (main env (.openFail r)).stderrLines = [saveErrMsg r] ∧
      (main env (.openFail r)).exitCode = 0) ∧
    ∀ m, (main env (.midFail n r)).merged = some m →
      (main env (.midFail n r)).dataFile = some (strTake (Locale.saveLanguagesData m) n) := by
  rw [main_cases env (.openFail r) prior po hload hpo,
    main_cases env (.midFail n r) prior po hload hpo]
  refine ⟨⟨rfl, rfl, rfl⟩, ?_⟩
  intro m hm
  rw [← Option.some_inj.mp hm]

/-- Claim C5, witness at a concrete environment for both failure shapes. -/
theorem C5_witness :
    ((main envC5 (.openFail "Read-only file system")).dataFile = envC5.dataFile ∧
      (main envC5 (.openFail "Read-only file system")).stderrLines =
        [saveErrMsg "Read-only file system"] ∧
      (main envC5 (.openFail "Read-only file system")).exitCode = 0) ∧
    (main envC5 (.midFail 3 "Disk quota exceeded")).dataFile =
      some (strTake (Locale.saveLanguagesData priorC5) 3) := by
  have h := C5_open_failure_leaves_file envC5 priorC5 [] "Read-only file system" 3
    (by rfl) rfl
  have h2 := C5_open_failure_leaves_file envC5 priorC5 [] "Disk quota exceeded" 3
    (by rfl) rfl
  exact ⟨h.1, h2.2 priorC5 (by rfl)⟩



/-- Claim C6: the working set is seeded from the first available registry
source in the static order ICU then babel — first success wins, so when ICU
is available the whole run is independent of the babel source — and when no
registry source is available the seed is empty and the run still completes
(exit 0) from persisted data and translation files only. -/
theorem C6_first_available_registry_seeds (env : Env) (b : RawSource) (w : WriteOutcome)
    (prior po : List (String × PyVal))
    (hload : loadPhase env.dataFile = .ok prior)
    (hpo : Locale.getLanguagesPo env.pofiles = .ok po) :
    (env.icu.available = true →
      seedOf env = Locale.getLanguages env.icu [] ∧ main (withBabel env b) w = main env w) ∧
    (env.icu.available = false → env.babel.available = true →
      seedOf env = Locale.getLanguages env.babel []) ∧
    (env.icu.available = false → env.babel.available = false →
      seedOf env = [] ∧ (main env w).exitCode = 0 ∧
      (main env w).merged = some (pyUpdate (pyUpdate [] prior) po)) := by
  refine ⟨?_, ?_, ?_⟩
  · intro hicu
    have hseed2 : seedOf (withBabel env b) = seedOf env := by
      unfold seedOf withBabel
      simp only [hicu, if_true]
    refine ⟨by unfold seedOf; rw [hicu]; simp, ?_⟩
    unfold main
    rw [hseed2]
    rfl
  · intro hicu hbab
    unfold seedOf
    rw [hicu, hbab]
    simp
  · intro hicu hbab
    have hseed : seedOf env = [] := by
      unfold seedOf
      rw [hicu, hbab]
      simp
    refine ⟨hseed, ?_, ?_⟩
    · rw [main_cases env w prior po hload hpo]
      cases w <;> rfl
    · rw [main_cases env w prior po hload hpo, hseed]
      cases w <;> rfl

def icuC6 : RawSource := ⟨true, ["en"], fun _ => "English", fun _ => "English"⟩

def babelC6 : RawSource := ⟨true, ["zz"], fun _ => "Zed", fun _ => "zed"⟩

def envC6 : Env := ⟨icuC6, noSrc, none, []⟩

/-- Claim C6, witness: with ICU available, replacing the babel source by a
populated one does not change the run at all. -/
theorem C6_witness :
    seedOf envC6 = Locale.getLanguages envC6.icu [] ∧
    main (withBabel envC6 babelC6) .ok = main envC6 .ok :=
  (C6_first_available_registry_seeds envC6 babelC6 .ok [] [] rfl rfl).1 rfl

/-- Claim C7: an absent persisted data file is not an error: it reads as an
empty prior set and the run completes successfully (exit 0, file written,
summary printed) from registry and translation data alone. -/
theorem C7_missing_datafile_ok (env : Env) (po : List (String × PyVal))
    (hnone : env.dataFile = none)
    (hpo : Locale.getLanguagesPo env.pofiles = .ok po) :
    (main env .ok).exitCode = 0 ∧
    (main env .ok).merged = some (pyUpdate (seedOf env) po) ∧
    (main env .ok).dataFile = some (Locale.saveLanguagesData (pyUpdate (seedOf env) po)) ∧
    (main env .ok).stdoutLines = [saveSummary (pyUpdate (seedOf env) po).length] := by
  have hload : loadPhase env.dataFile = .ok [] := by rw [hnone]; rfl
  rw [main_cases env .ok [] po hload hpo]
  exact ⟨rfl, rfl, rfl, rfl⟩

def envC7 : Env :=
  ⟨icuC6, noSrc, none, [⟨"fr", [("Language-Name", "French"), ("Language-Native-Name", "french")]⟩]⟩

/-- Claim C7, witness at a concrete environment with no data file. -/
theorem C7_witness :
    (main envC7 .ok).exitCode = 0 ∧
    (main envC7 .ok).merged = some (pyUpdate (seedOf envC7) [("fr", PyVal.vtup "French" "French")]) ∧
    (main envC7 .ok).dataFile = some (Locale.saveLanguagesData
      (pyUpdate (seedOf envC7) [("fr", PyVal.vtup "French" "French")])) ∧
    (main envC7 .ok).stdoutLines = [saveSummary
      (pyUpdate (seedOf envC7) [("fr", PyVal.vtup "French" "French")]).length] :=
  C7_missing_datafile_ok envC7 [("fr", PyVal.vtup "French" "French")] rfl (by rfl)

/-- Claim C8: a translation catalog missing `Language-Name` or
`Language-Native-Name` propagates as a fatal error — the run exits 1 via
the `__main__` guard, nothing is merged, and the data file is untouched —
rather than being skipped or recovered. -/
theorem C8_malformed_catalog_fatal (env : Env) (w : WriteOutcome) (cat : PoCatalog)
    (hmem : cat ∈ env.pofiles)
    (hmiss : lookV "Language-Name" cat.metadata = none ∨
      lookV "Language-Native-Name" cat.metadata = none) :
    (main env w).exitCode = 1 ∧ (main env w).dataFile = env.dataFile ∧
    (main env w).merged = none := by
  obtain ⟨msg, hmsg⟩ := getLanguagesPo_error_of_missing hmem hmiss
  cases hl : loadPhase env.dataFile with
  | error m2 =>
    rw [main_fatal_load env w hl]
    exact ⟨rfl, rfl, rfl⟩
  | ok prior =>
    rw [main_fatal_po env w hl hmsg]
    exact ⟨rfl, rfl, rfl⟩

def envC8 : Env := ⟨noSrc, noSrc, none, [⟨"de", [("Language-Name", "German")]⟩]⟩

/-- Claim C8, witness: a catalog with no `Language-Native-Name` field. -/
theorem C8_witness :
    (main envC8 .ok).exitCode = 1 ∧ (main envC8 .ok).dataFile = envC8.dataFile ∧
    (main envC8 .ok).merged = none :=
  C8_malformed_catalog_fatal envC8 .ok ⟨"de", [("Language-Name", "German")]⟩
    (by simp [envC8]) (Or.inr (by decide))



def icuC9 : RawSource :=
  ⟨true, ["en"], fun c => if c = "en" then "English" else "",
    fun c => if c = "en" then "english" else ""⟩

def envC9 : Env :=
  ⟨icuC9, noSrc,
    some (Locale.saveLanguagesData
      [("en", PyVal.vlst ["English", "English"]), ("fr", PyVal.vlst ["French", "Français"])]),
    [⟨"en", [("Language-Name", "English"), ("Language-Native-Name", "English")]⟩]⟩

/-- Claim C9: with the registry yielding en -> (English, english), the
persisted file holding en -> [English, English] and fr -> [French,
Français], and the translation files yielding en -> (English, English),
the final saved data file is exactly the serialization of
en -> [English, English], fr -> [French, Français]. -/
theorem C9_concrete_example :
    (main envC9 .ok).dataFile = some (Locale.saveLanguagesData
      [("en", PyVal.vlst ["English", "English"]), ("fr", PyVal.vlst ["French", "Français"])]) ∧
    (main envC9 .ok).exitCode = 0 := by
  constructor <;> decide

/-- Claim C10: `Locale.getLanguages` never returns an entry whose English
and native names are both empty — for any source and any requested locale
filter, a code for which the source knows neither name is silently
omitted. -/
theorem C10_no_entry_with_both_names_empty (src : RawSource) (locales : List String) :
    (∀ k v, lookV k (Locale.getLanguages src locales) = some v →
      ∃ e n, v = PyVal.vtup e n ∧ (e ≠ "" ∨ n ≠ "")) ∧
    (∀ k, src.english k = "" → src.native k = "" →
      lookV k (Locale.getLanguages src locales) = none) ∧
    (∀ (cats : List PoCatalog) (po : List (String × PyVal)),
      Locale.getLanguagesPo cats = .ok po →
      ∀ k v, lookV k po = some v → ∃ e n, v = PyVal.vtup e n ∧ (e ≠ "" ∨ n ≠ "")) := by
  refine ⟨?_, ?_, ?_⟩
  · intro k v h
    obtain ⟨e, n, he, hne, _⟩ := getLanguages_good src locales k v h
    exact ⟨e, n, he, hne⟩
  · intro k he hn
    exact getLanguages_absent src locales he hn
  · intro cats po hok k v h
    obtain ⟨e, n, he, hne, _⟩ := getLanguagesPo_good hok k v h
    exact ⟨e, n, he, hne⟩

def srcC10 : RawSource :=
  ⟨true, ["aa", "zz"], fun c => if c = "aa" then "Afar" else "", fun _ => ""⟩

/-- Claim C10, witness: a source knowing neither name for "zz" omits it;
the kept entry for "aa" has a non-empty name. -/
theorem C10_witness :
    lookV "zz" (Locale.getLanguages srcC10 []) = none ∧
    ∃ e n, PyVal.vtup "Afar" "" = PyVal.vtup e n ∧ (e ≠ "" ∨ n ≠ "") := by
  have h := C10_no_entry_with_both_names_empty srcC10 []
  exact ⟨h.2.1 "zz" (by decide) (by decide),
    h.1 "aa" (PyVal.vtup "Afar" "") (by decide)⟩

end Languages
